import Mathlib

/-!
Verification development for the `gistools` catchment-delineation core
(`gistools/rec.py`, `gistools/catch_del.py`).

The embedding translates the pandas/geopandas code into executable Lean
definitions:

* a DataFrame of stream reaches becomes a `List Reach` (rows in order,
  duplicates possible, as in a DataFrame);
* `pd.concat` of row frames becomes list append;
* boolean-mask selection (`rec[rec.NZTNODE.isin(...)]`) becomes `List.filter`;
* polygon geometry is abstracted to a finite set of unit cells
  (`Finset Nat`): geometric union (`dissolve`) is set union and `area` is
  the cardinality — the geometry engine itself is an external collaborator
  of the repository;
* a Python run that raises is `Res.raised`; a run whose traversal loop has
  not finished within the supplied fuel is `Res.hang` (the loop in
  `find_upstream` has no other exit, so `Res.hang` for every fuel value is
  divergence).
-/

/-- A row of the REC streams table: `NZREACH`, `NZFNODE`, `NZTNODE`
(`rec.py` drops the geometry column before tracing, line 39). -/
structure Reach where
  nzreach : Int
  nzfnode : Int
  nztnode : Int
deriving DecidableEq

/-- The `NZFNODE` column of a row selection (`reach1.NZFNODE`). -/
def fromNodes (rs : List Reach) : List Int :=
  rs.map (fun r => r.nzfnode)

/-- One expansion of the traversal: `rec[rec.NZTNODE.isin(up1.NZFNODE)]`
(`rec.py` lines 45 and 48). -/
def upstep (rec : List Reach) (frontier : List Reach) : List Reach :=
  rec.filter (fun r => decide (r.nztnode ∈ fromNodes frontier))

/-- The `while not up1.empty` loop of `find_upstream` (`rec.py` lines 46-48),
with explicit fuel: `none` means the loop was still running when the fuel
ran out.  Each iteration appends the frontier (`pd.concat([reach1, up1])`)
and recomputes the frontier with `upstep`. -/
def upLoop (rec : List Reach) : Nat → List Reach → List Reach → Option (List Reach)
  | 0, reach1, up1 => if up1.isEmpty then some reach1 else none
  | n + 1, reach1, up1 =>
    if up1.isEmpty then some reach1
    else upLoop rec n (reach1 ++ up1) (upstep rec up1)

/-- The body of the `for i in nzreach` loop of `find_upstream` for one start
id `i` (`rec.py` lines 44-50): seed rows `rec[rec.NZREACH == i]`, initial
frontier, then the while loop. -/
def find_upstream_one (rec : List Reach) (i : Int) (fuel : Nat) : Option (List Reach) :=
  let reach1 := rec.filter (fun r => r.nzreach == i)
  upLoop rec fuel reach1 (upstep rec reach1)

/-- Level `k` of the expansion from start id `i`: level 0 is the seed rows,
level `k+1` is one `upstep` of level `k`.  Used to reason about the loop. -/
def levels (rec : List Reach) (i : Int) : Nat → List Reach
  | 0 => rec.filter (fun r => r.nzreach == i)
  | k + 1 => upstep rec (levels rec i k)

/-- Outcome of running a piece of the Python pipeline: a value, a raised
exception, or a loop still running when the fuel ran out. -/
inductive Res (α : Type) where
  | ok : α → Res α
  | raised : Res α
  | hang : Res α
deriving DecidableEq

/-- The `for i in nzreach` loop of `find_upstream` over all start ids,
tagging each returned row with its start (`reach1.loc[:, 'start'] = i`,
`rec.py` line 49) and concatenating the per-start frames in order. -/
def collectTraces (rec : List Reach) : List Int → Nat → Option (List (Int × Reach))
  | [], _ => some []
  | i :: rest, fuel =>
    match find_upstream_one rec i fuel, collectTraces rec rest fuel with
    | some l, some ls => some (l.map (fun r => (i, r)) ++ ls)
    | _, _ => none

/-- `find_upstream` (`rec.py` lines 14-54).  After the per-start loop,
`pd.concat(reaches_lst)` raises `ValueError` when `reaches_lst` is empty,
which happens exactly when `nzreach` is empty. -/
def find_upstream (rec : List Reach) (nzreach : List Int) (fuel : Nat) :
    Res (List (Int × Reach)) :=
  match collectTraces rec nzreach fuel with
  | none => Res.hang
  | some ls => if nzreach.isEmpty then Res.raised else Res.ok ls

/-! ### C1: behaviour on a cyclic (self-loop) network -/
/-- A degenerate reach table: one reach whose `NZFNODE` equals its
`NZTNODE` (a self-loop), which the source never rules out. -/
def recLoop : List Reach := [⟨1, 5, 5⟩]

/-! ### Catchment extraction and aggregation (`extract_catch`, `agg_catch`)

Polygon geometry is abstracted to a finite set of unit cells: `dissolve`
(geometric union grouped by a key, sorted by the key as pandas `groupby`
does) is set union per group, `area` is the cardinality. -/
/-- A row of the REC catchments table: `NZREACH` plus its polygon. -/
structure CatchRow where
  nzreach : Int
  geom : Finset Nat
deriving DecidableEq

/-- A row of the output of `extract_catch` (`catch3`): dissolved catchment
polygon per `NZREACH`, joined back onto the tagged reach rows. -/
structure MergedRow where
  nzreach : Int
  geom : Finset Nat
  start : Int
deriving DecidableEq

/-- A row of the output of `agg_catch` (`rec_shed`): one unioned polygon and
its area per start reach. -/
structure ShedRow where
  start : Int
  geom : Finset Nat
  area : Nat
deriving DecidableEq

/-- Union of a list of polygons (the geometry aggregation of `dissolve`). -/
def unionGeoms (gs : List (Finset Nat)) : Finset Nat :=
  gs.foldr (fun g acc => g ∪ acc) ∅

/-- `Series.unique()`: the distinct values of a column in first-occurrence
order. -/
def uniqueFirst (l : List Int) : List Int :=
  l.foldl (fun acc a => if a ∈ acc then acc else acc ++ [a]) []

/-- `df.dissolve(key)` followed by `reset_index()`: group the rows by the
key column (groups sorted by key, as pandas does), one output row per group
with the union of the group's geometries. -/
def dissolveBy {α : Type} (key : α → Int) (geo : α → Finset Nat) (rows : List α) :
    List (Int × Finset Nat) :=
  (((rows.map key).dedup).insertionSort (fun a b => a ≤ b)).map
    (fun k => (k, unionGeoms ((rows.filter (fun x => key x == k)).map geo)))

/-- The union of all catchment polygons recorded for reach id `n` (the
dissolved geometry of group `n`). -/
def dissolved (catch0 : List CatchRow) (n : Int) : Finset Nat :=
  unionGeoms ((catch0.filter (fun c => c.nzreach == n)).map (fun c => c.geom))

/-- `extract_catch` (`rec.py` lines 61-97): restrict the catchments layer to
the reach ids appearing in the traced rows, dissolve it by `NZREACH`, and
inner-merge the result onto the traced rows (left frame `catch2` in key
order, each key joined with the matching traced rows in row order). -/
def extract_catch (reaches : List (Int × Reach)) (catch0 : List CatchRow) :
    List MergedRow :=
  let sites := uniqueFirst (reaches.map (fun p => p.2.nzreach))
  let catch1 := catch0.filter (fun c => decide (c.nzreach ∈ sites))
  let catch2 := dissolveBy (fun c => c.nzreach) (fun c => c.geom) catch1
  catch2.flatMap (fun kg =>
    (reaches.filter (fun p => p.2.nzreach == kg.1)).map
      (fun p => ⟨kg.1, kg.2, p.1⟩))

/-- `agg_catch` (`rec.py` lines 100-117): dissolve the extracted rows by
`start` and compute the area of each unioned polygon. -/
def agg_catch (rec_catch : List MergedRow) : List ShedRow :=
  (dissolveBy (fun m => m.start) (fun m => m.geom) rec_catch).map
    (fun kg => ⟨kg.1, kg.2, kg.2.card⟩)

/-! ### Site matching and the full `catch_delineate` pipeline -/
/-- A planar point with integer coordinates; distances are compared via the
squared Euclidean distance, so no roots are needed. -/
structure Pt where
  x : Int
  y : Int
deriving DecidableEq

def distSq (a b : Pt) : Int :=
  (a.x - b.x) * (a.x - b.x) + (a.y - b.y) * (a.y - b.y)

/-- An input site: attributes (its id) and a point location. -/
structure Site where
  sid : Int
  pos : Pt
deriving DecidableEq

/-- A site after matching: its attributes plus the assigned `NZREACH`
(a row of `pts_seg` with the geometry column ignored). -/
structure MatchedSite where
  sid : Int
  nzreach : Int
deriving DecidableEq

/-- A row of the final output `rec_shed1`: matched reach id, catchment
polygon, area, and the site attributes. -/
structure OutRow where
  nzreach : Int
  geom : Finset Nat
  area : Nat
  sid : Int
deriving DecidableEq

/-- The nearest reach centroid to a point: returns the reach id and the
squared distance, earlier rows winning ties. -/
def nearestReach (p : Pt) : List (Reach × Pt) → Option (Int × Int)
  | [] => none
  | rc :: rest =>
    match nearestReach p rest with
    | none => some (rc.1.nzreach, distSq p rc.2)
    | some (n, d) =>
      if distSq p rc.2 ≤ d then some (rc.1.nzreach, distSq p rc.2) else some (n, d)

/-- Whether a squared distance is within the (optional) squared bound;
`none` is an unbounded `max_distance` (the `np.inf` default). -/
def withinBound (d : Int) : Option Int → Bool
  | none => true
  | some m => d ≤ m

/-- Modelled from the spec: `kd_nearest` (`gistools.vector`, not under
`src/`).  Per §4.2(b), each reach is represented by its centroid, each point
is assigned the nearest centroid, and the site is kept only when that
distance does not exceed `max_distance`; a site with no qualifying match is
dropped. -/
def kd_nearest (pts : List Site) (recs : List (Reach × Pt)) (maxDistSq : Option Int) :
    List MatchedSite :=
  pts.flatMap (fun p =>
    match nearestReach p.pos recs with
    | none => []
    | some (n, d) => if withinBound d maxDistSq then [⟨p.sid, n⟩] else [])

/-- The hardcoded topology overrides of `catch_delineate` (`rec.py` line
147): `NZREACH` to new `NZTNODE`. -/
def mods : List (Int × Int) :=
  [(13053151, 13055874), (13048353, 13048851), (13048498, 13048851)]

/-- One override application (`rec.py` line 157): set the `NZTNODE` of every
stream row whose `NZREACH` equals `i`. -/
def applyOverrideS (rows : List (Reach × Pt)) (i t : Int) : List (Reach × Pt) :=
  rows.map (fun rc =>
    if rc.1.nzreach == i then ({ rc.1 with nztnode := t }, rc.2) else rc)

/-- The `for i in mods` loop (`rec.py` lines 156-157). -/
def applyModsS (ms : List (Int × Int)) (rows : List (Reach × Pt)) : List (Reach × Pt) :=
  ms.foldl (fun acc m => applyOverrideS acc m.1 m.2) rows

/-- The tail of `catch_delineate` after site matching (`rec.py` lines
164-175): distinct matched reach ids, upstream trace, catchment extraction,
aggregation, and the final merge of `rec_shed` (renamed to `NZREACH`) with
`pts_seg` on `NZREACH`. -/
def delineate_from_matches (rec : List Reach) (catch0 : List CatchRow)
    (pts_seg : List MatchedSite) (fuel : Nat) : Res (List OutRow) :=
  let nzreach := uniqueFirst (pts_seg.map (fun s => s.nzreach))
  match find_upstream rec nzreach fuel with
  | Res.raised => Res.raised
  | Res.hang => Res.hang
  | Res.ok reaches =>
    let rec_catch := extract_catch reaches catch0
    let rec_shed := agg_catch rec_catch
    Res.ok (rec_shed.flatMap (fun sr =>
      (pts_seg.filter (fun s => s.nzreach == sr.start)).map
        (fun s => ⟨sr.start, sr.geom, sr.area, s.sid⟩)))

/-- `catch_delineate` (`rec.py` lines 120-178): load the layers, apply the
hardcoded node overrides to the streams, match each site to the nearest
reach centroid within `max_distance` (point simplification is the identity
on points), then run the shared trace/extract/aggregate/merge tail.
`find_upstream` receives the modified streams with the geometry column
dropped. -/
def catch_delineate (pts : List Site) (rec_streams : List (Reach × Pt))
    (catch0 : List CatchRow) (maxDistSq : Option Int) (fuel : Nat) :
    Res (List OutRow) :=
  let recS := applyModsS mods rec_streams
  let pts_seg := kd_nearest pts recS maxDistSq
  delineate_from_matches (recS.map (fun rc => rc.1)) catch0 pts_seg fuel

/-- The non-deduplicated formulation of §4.5 and §9, written from the spec's
words for the refinement claim: run the trace and aggregation separately
once per site (each site is its own batch of one) and concatenate the
per-site results in site order. -/
def delineate_per_site_spec (rec : List Reach) (catch0 : List CatchRow)
    (pts_seg : List MatchedSite) (fuel : Nat) : List OutRow :=
  pts_seg.flatMap (fun s =>
    match delineate_from_matches rec catch0 [s] fuel with
    | Res.ok out => out
    | _ => [])

/-- The rows of the terminating trace from start `i` (empty if the loop did
not finish). -/
def traceOf (rec : List Reach) (i : Int) (fuel : Nat) : List Reach :=
  (find_upstream_one rec i fuel).getD []

/-! ### Semantic description of one start's aggregated catchment

The dissolved geometry that the pipeline associates to a start reach depends
only on that start's trace and the catchments table, not on the rest of the
batch; the next definitions name that value and the lemmas prove the
independence. -/
/-- Whether the traced upstream set of start `r` has at least one reach with
a recorded sub-catchment (only then does the inner merge of `extract_catch`
produce rows for `r`, and only then does `agg_catch` emit a row for it). -/
def hasShed (rec : List Reach) (catch0 : List CatchRow) (r : Int) (fuel : Nat) : Bool :=
  (traceOf rec r fuel).any (fun t => catch0.any (fun c => c.nzreach == t.nzreach))

/-- The aggregated catchment polygon of start `r`: the union of the
dissolved sub-catchments of every traced reach that has one. -/
def shedGeom (rec : List Reach) (catch0 : List CatchRow) (r : Int) (fuel : Nat) :
    Finset Nat :=
  unionGeoms (((traceOf rec r fuel).filter
      (fun t => catch0.any (fun c => c.nzreach == t.nzreach))).map
    (fun t => dissolved catch0 t.nzreach))

/-! ### C4: the concrete three-reach scenario -/
/-- The concrete network of the spec's scenario. -/
def rec4 : List Reach := [⟨1, 10, 20⟩, ⟨2, 20, 30⟩, ⟨3, 25, 30⟩]

/-- Sub-catchments of areas 5, 3 and 4 for reaches 1, 2 and 3. -/
def catch4 : List CatchRow :=
  [⟨1, {0, 1, 2, 3, 4}⟩, ⟨2, {5, 6, 7}⟩, ⟨3, {8, 9, 10, 11}⟩]

/-! ### C6: overrides mutate a copy of the loaded network, not the source

`load_geo_data` lives in `gistools.util`, outside the sources under
verification, so this claim is settled against a model of it taken from the
spec.  Object identity is made explicit with a small heap of stream tables:
the caller's table is one heap cell, `load_geo_data` allocates a fresh cell
holding the same rows, and the override loop of `catch_delineate` assigns
through `.loc` on the working cell only. -/
/-- A heap of loaded stream tables, keyed by object id. -/
abbrev Heap := List (Nat × List (Reach × Pt))

def heapGet : Heap → Nat → Option (List (Reach × Pt))
  | [], _ => none
  | q :: t, oid => if q.1 = oid then some q.2 else heapGet t oid

def heapSet : Heap → Nat → List (Reach × Pt) → Heap
  | [], _, _ => []
  | q :: t, oid, v => if q.1 = oid then (oid, v) :: t else q :: heapSet t oid v

def freshId (h : Heap) : Nat :=
  (h.map (fun q => q.1)).foldr (fun a b => max a b) 0 + 1

/-- Modelled from the spec: `load_geo_data` (`gistools.util`, not under
`src/`) accepts an already-loaded collection and yields it as a fresh
object holding the same rows — §3 of the spec: topology overrides mutate a
copy, never the source.  Returns the heap after allocation and the new
object's id; fails if the source object does not exist. -/
def load_geo_data_heap (h : Heap) (src : Nat) : Option (Heap × Nat) :=
  (heapGet h src).map (fun v => ((freshId h, v) :: h, freshId h))

/-- The `for i in mods` override loop of `catch_delineate` (`rec.py` lines
156-157) acting on the working object through the heap: every iteration
reads the working table and assigns the masked rows back in place. -/
def mods_loop_heap (ms : List (Int × Int)) (h : Heap) (wid : Nat) : Heap :=
  ms.foldl (fun hh m =>
    match heapGet hh wid with
    | some v => heapSet hh wid (applyOverrideS v m.1 m.2)
    | none => hh) h

/-- Loading the caller's network (as a fresh copy) and running the override
loop on the loaded object, as `catch_delineate` does before matching. -/
def run_overrides_heap (ms : List (Int × Int)) (h : Heap) (src : Nat) :
    Option (Heap × Nat) :=
  (load_geo_data_heap h src).map (fun hw => (mods_loop_heap ms hw.1 hw.2, hw.2))

/-! ### Basic facts about the traversal -/
theorem upstep_nil (rec : List Reach) : upstep rec [] = [] := by
  simp [upstep, fromNodes]

theorem mem_upstep {rec frontier : List Reach} {r : Reach} :
    r ∈ upstep rec frontier ↔
      r ∈ rec ∧ ∃ f ∈ frontier, f.nzfnode = r.nztnode := by
  simp [upstep, fromNodes, List.mem_filter]

theorem levels_subset_rec {rec : List Reach} {i : Int} {k : Nat} {r : Reach}
    (h : r ∈ levels rec i k) : r ∈ rec := by
  cases k with
  | zero => exact (List.mem_filter.mp h).1
  | succ k => exact (mem_upstep.mp h).1

/-- Once a level is empty, all later levels are empty. -/
theorem levels_eq_nil_of_le {rec : List Reach} {i : Int} {k m : Nat}
    (hk : levels rec i k = []) (hkm : k ≤ m) : levels rec i m = [] := by
  induction m with
  | zero => cases Nat.le_zero.mp hkm; exact hk
  | succ m ih =>
    rcases Nat.lt_or_ge k (m + 1) with h | h
    · have : levels rec i m = [] := ih (Nat.lt_succ_iff.mp h)
      simp [levels, this, upstep_nil]
    · cases Nat.le_antisymm hkm h; exact hk

/-- If the while loop terminates, the returned rows are exactly the seed rows
together with every level of the expansion.  Stated for the generic loop
state: `reach1` accumulated so far, current frontier `up1 = levels rec i j`. -/
theorem upLoop_mem {rec : List Reach} {i : Int} :
    ∀ (n : Nat) (acc : List Reach) (j : Nat) (res : List Reach),
      upLoop rec n acc (levels rec i j) = some res →
      ∀ r : Reach, r ∈ res ↔ (r ∈ acc ∨ ∃ m, j ≤ m ∧ r ∈ levels rec i m) := by
  intro n
  induction n with
  | zero =>
    intro acc j res h r
    by_cases he : levels rec i j = []
    · simp only [upLoop, he, List.isEmpty_nil, if_true, Option.some.injEq] at h
      subst h
      constructor
      · exact fun hr => Or.inl hr
      · rintro (hr | ⟨m, hjm, hr⟩)
        · exact hr
        · exact absurd hr (by simp [levels_eq_nil_of_le he hjm])
    · simp only [upLoop, List.isEmpty_iff, he, if_false] at h
      exact Option.noConfusion h
  | succ n ih =>
    intro acc j res h r
    by_cases he : levels rec i j = []
    · simp only [upLoop, he, List.isEmpty_nil, if_true, Option.some.injEq] at h
      subst h
      constructor
      · exact fun hr => Or.inl hr
      · rintro (hr | ⟨m, hjm, hr⟩)
        · exact hr
        · exact absurd hr (by simp [levels_eq_nil_of_le he hjm])
    · simp only [upLoop, List.isEmpty_iff, he, if_false] at h
      have h' : upLoop rec n (acc ++ levels rec i j) (levels rec i (j + 1)) = some res := by
        simpa [levels] using h
      have := ih (acc ++ levels rec i j) (j + 1) res h' r
      rw [this]
      constructor
      · rintro (hr | ⟨m, hm, hr⟩)
        · rcases List.mem_append.mp hr with hr | hr
          · exact Or.inl hr
          · exact Or.inr ⟨j, Nat.le_refl j, hr⟩
        · exact Or.inr ⟨m, Nat.le_of_succ_le hm, hr⟩
      · rintro (hr | ⟨m, hm, hr⟩)
        · exact Or.inl (List.mem_append.mpr (Or.inl hr))
        · rcases Nat.eq_or_lt_of_le hm with rfl | hlt
          · exact Or.inl (List.mem_append.mpr (Or.inr hr))
          · exact Or.inr ⟨m, hlt, hr⟩

/-- Membership characterization of a terminating trace: a row is returned
for start `i` exactly when it sits on some level of the upstream expansion
from `i`. -/
theorem find_upstream_one_mem {rec : List Reach} {i : Int} {fuel : Nat}
    {res : List Reach} (h : find_upstream_one rec i fuel = some res) (r : Reach) :
    r ∈ res ↔ ∃ m, r ∈ levels rec i m := by
  have h1 : upstep rec (rec.filter (fun r => r.nzreach == i)) = levels rec i 1 := rfl
  simp only [find_upstream_one] at h
  rw [h1] at h
  have := @upLoop_mem rec i fuel
    (rec.filter (fun r => r.nzreach == i)) 1 res h r
  rw [this]
  constructor
  · rintro (hr | ⟨m, _, hr⟩)
    · exact ⟨0, by simpa [levels] using hr⟩
    · exact ⟨m, hr⟩
  · rintro ⟨m, hr⟩
    cases m with
    | zero => exact Or.inl (by simpa [levels] using hr)
    | succ m => exact Or.inr ⟨m + 1, Nat.succ_le_succ (Nat.zero_le m), hr⟩

theorem upLoop_recLoop_none :
    ∀ (n : Nat) (acc : List Reach), upLoop recLoop n acc [⟨1, 5, 5⟩] = none := by
  intro n
  induction n with
  | zero => intro acc; rfl
  | succ n ih =>
    intro acc
    have hstep : upstep recLoop [⟨1, 5, 5⟩] = [⟨1, 5, 5⟩] := by decide
    show (if ([(⟨1, 5, 5⟩ : Reach)]).isEmpty then some acc
      else upLoop recLoop n (acc ++ [⟨1, 5, 5⟩]) (upstep recLoop [⟨1, 5, 5⟩])) = none
    rw [hstep]
    exact ih (acc ++ [⟨1, 5, 5⟩])

/-- C1: the claim says `find_upstream` terminates on a reach table with a
reachable cycle (including a self-loop reach).  In the source the `while not
up1.empty` loop has no visited-set exclusion, so on the self-loop table the
frontier never empties: for every fuel bound the loop is still running —
the code diverges.  This theorem certifies the divergence at the failing
input. -/
theorem find_upstream_selfloop_diverges :
    ∀ fuel : Nat, find_upstream recLoop [1] fuel = Res.hang := by
  intro fuel
  have e1 : recLoop.filter (fun r => r.nzreach == 1) = [⟨1, 5, 5⟩] := by decide
  have e2 : upstep recLoop [⟨1, 5, 5⟩] = [⟨1, 5, 5⟩] := by decide
  have h1 : find_upstream_one recLoop 1 fuel = none := by
    simp only [find_upstream_one, e1, e2]
    exact upLoop_recLoop_none fuel _
  simp [find_upstream, collectTraces, h1]

/-! ### C7: monotonicity of the upstream trace -/
/-- C7: over a reach table with unique reach ids (the data-model invariant),
if reach `b` appears in the terminating trace from start `a`, then every row
of the terminating trace from `b.nzreach` already appears in the trace from
`a`: re-tracing from an already-visited reach adds nothing outside the
visited set. -/
theorem trace_upstream_monotone (rec : List Reach) (a : Int) (b : Reach)
    (fa fb : Nat) (resA resB : List Reach)
    (hnd : (rec.map (fun r => r.nzreach)).Nodup)
    (hA : find_upstream_one rec a fa = some resA)
    (hB : find_upstream_one rec b.nzreach fb = some resB)
    (hbmem : b ∈ resA) :
    ∀ r ∈ resB, r ∈ resA := by
  obtain ⟨k, hbk⟩ := (find_upstream_one_mem hA b).mp hbmem
  have key : ∀ (j : Nat) (r : Reach),
      r ∈ levels rec b.nzreach j → ∃ m, r ∈ levels rec a m := by
    intro j
    induction j with
    | zero =>
      intro r hr
      have hmem := List.mem_filter.mp hr
      have hreq : r.nzreach = b.nzreach := by simpa using hmem.2
      have hbrec : b ∈ rec := levels_subset_rec hbk
      have hrb : r = b := List.inj_on_of_nodup_map hnd hmem.1 hbrec hreq
      exact hrb ▸ ⟨k, hbk⟩
    | succ j ih =>
      intro r hr
      obtain ⟨hrrec, f, hf, hnode⟩ := mem_upstep.mp hr
      obtain ⟨m, hm⟩ := ih f hf
      exact ⟨m + 1, mem_upstep.mpr ⟨hrrec, f, hm, hnode⟩⟩
  intro r hr
  obtain ⟨j, hj⟩ := (find_upstream_one_mem hB r).mp hr
  obtain ⟨m, hm⟩ := key j r hj
  exact (find_upstream_one_mem hA r).mpr ⟨m, hm⟩

theorem trace_upstream_monotone_witness :
    (⟨1, 10, 20⟩ : Reach) ∈ [(⟨2, 20, 30⟩ : Reach), ⟨1, 10, 20⟩] :=
  trace_upstream_monotone [⟨1, 10, 20⟩, ⟨2, 20, 30⟩] 2 ⟨1, 10, 20⟩ 5 5
    [⟨2, 20, 30⟩, ⟨1, 10, 20⟩] [⟨1, 10, 20⟩]
    (by decide) (by decide) (by decide) (by decide)
    ⟨1, 10, 20⟩ (by decide)

/-! ### C10: start id absent from the reach table -/
/-- C10: when the start id matches no row of the reach table, the seed
selection is empty, the initial frontier is empty, the while loop exits at
once, and the start contributes zero rows — the result does not even contain
the start reach, and nothing is raised (the tagged frame list is nonempty,
so the final concat succeeds with an empty frame). -/
theorem find_upstream_absent_start (rec : List Reach) (i : Int) (fuel : Nat)
    (habs : ∀ r ∈ rec, r.nzreach ≠ i) :
    find_upstream_one rec i fuel = some [] ∧ find_upstream rec [i] fuel = Res.ok [] := by
  have e0 : rec.filter (fun r => r.nzreach == i) = [] := by
    rw [List.filter_eq_nil_iff]
    intro r hr
    simpa using habs r hr
  have h1 : find_upstream_one rec i fuel = some [] := by
    simp only [find_upstream_one, e0, upstep_nil]
    cases fuel <;> rfl
  refine ⟨h1, ?_⟩
  simp [find_upstream, collectTraces, h1]

theorem find_upstream_absent_start_witness :
    find_upstream_one [⟨2, 3, 4⟩] 1 5 = some [] ∧
      find_upstream [⟨2, 3, 4⟩] [1] 5 = Res.ok [] :=
  find_upstream_absent_start [⟨2, 3, 4⟩] 1 5 (by decide)

/-! ### Lemmas about the pipeline building blocks -/
theorem uniqueFirst_aux_mem (l : List Int) :
    ∀ (acc : List Int) (a : Int),
      a ∈ l.foldl (fun acc a => if a ∈ acc then acc else acc ++ [a]) acc ↔
        a ∈ acc ∨ a ∈ l := by
  induction l with
  | nil => intro acc a; simp
  | cons b l ih =>
    intro acc a
    rw [List.foldl_cons, ih]
    by_cases hb : b ∈ acc
    · rw [if_pos hb]
      constructor
      · rintro (h | h)
        · exact Or.inl h
        · exact Or.inr (List.mem_cons_of_mem _ h)
      · rintro (h | h)
        · exact Or.inl h
        · rcases List.mem_cons.mp h with rfl | h
          · exact Or.inl hb
          · exact Or.inr h
    · rw [if_neg hb]
      constructor
      · rintro (h | h)
        · rcases List.mem_append.mp h with h | h
          · exact Or.inl h
          · exact Or.inr (List.mem_cons.mpr (Or.inl (List.mem_singleton.mp h)))
        · exact Or.inr (List.mem_cons_of_mem _ h)
      · rintro (h | h)
        · exact Or.inl (List.mem_append.mpr (Or.inl h))
        · rcases List.mem_cons.mp h with rfl | h
          · exact Or.inl (List.mem_append.mpr (Or.inr (List.mem_singleton.mpr rfl)))
          · exact Or.inr h

theorem mem_uniqueFirst (l : List Int) (a : Int) : a ∈ uniqueFirst l ↔ a ∈ l := by
  rw [uniqueFirst, uniqueFirst_aux_mem]
  simp

theorem uniqueFirst_aux_nodup (l : List Int) :
    ∀ acc : List Int, acc.Nodup →
      (l.foldl (fun acc a => if a ∈ acc then acc else acc ++ [a]) acc).Nodup := by
  induction l with
  | nil => intro acc h; simpa using h
  | cons b l ih =>
    intro acc h
    rw [List.foldl_cons]
    by_cases hb : b ∈ acc
    · rw [if_pos hb]; exact ih acc h
    · rw [if_neg hb]
      refine ih (acc ++ [b]) ?_
      rw [List.nodup_append]
      refine ⟨h, List.nodup_singleton b, ?_⟩
      intro x hx
      simp only [List.mem_singleton]
      intro hxb
      exact hb (hxb ▸ hx)

theorem nodup_uniqueFirst (l : List Int) : (uniqueFirst l).Nodup :=
  uniqueFirst_aux_nodup l [] List.nodup_nil

theorem uniqueFirst_aux_ne_nil (l : List Int) :
    ∀ acc : List Int, acc ≠ [] →
      l.foldl (fun acc a => if a ∈ acc then acc else acc ++ [a]) acc ≠ [] := by
  induction l with
  | nil => intro acc h; simpa using h
  | cons b l ih =>
    intro acc h
    rw [List.foldl_cons]
    by_cases hb : b ∈ acc
    · rw [if_pos hb]; exact ih acc h
    · rw [if_neg hb]
      exact ih (acc ++ [b]) (by simp)

theorem uniqueFirst_ne_nil {l : List Int} (h : l ≠ []) : uniqueFirst l ≠ [] := by
  cases l with
  | nil => exact absurd rfl h
  | cons a l =>
    rw [uniqueFirst, List.foldl_cons]
    simp only [List.not_mem_nil, if_false, List.nil_append]
    exact uniqueFirst_aux_ne_nil l [a] (by simp)

theorem unionGeoms_cons (g : Finset Nat) (gs : List (Finset Nat)) :
    unionGeoms (g :: gs) = g ∪ unionGeoms gs := rfl

theorem mem_unionGeoms {gs : List (Finset Nat)} {x : Nat} :
    x ∈ unionGeoms gs ↔ ∃ g ∈ gs, x ∈ g := by
  induction gs with
  | nil => simp [unionGeoms]
  | cons g gs ih => simp [unionGeoms_cons, Finset.mem_union, ih]

theorem mem_dissolveBy {α : Type} {key : α → Int} {geo : α → Finset Nat}
    {rows : List α} {p : Int × Finset Nat} :
    p ∈ dissolveBy key geo rows ↔
      (∃ x ∈ rows, key x = p.1) ∧
      p.2 = unionGeoms ((rows.filter (fun x => key x == p.1)).map geo) := by
  obtain ⟨p1, p2⟩ := p
  unfold dissolveBy
  rw [List.mem_map]
  constructor
  · rintro ⟨k, hk, hkp⟩
    have h1 : k = p1 := congrArg Prod.fst hkp
    have h2 : unionGeoms ((rows.filter (fun x => key x == k)).map geo) = p2 :=
      congrArg Prod.snd hkp
    subst h1
    have hk' : k ∈ (rows.map key).dedup := ((List.perm_insertionSort _ _).mem_iff).mp hk
    rw [List.mem_dedup, List.mem_map] at hk'
    obtain ⟨x, hx, hkx⟩ := hk'
    exact ⟨⟨x, hx, hkx⟩, h2.symm⟩
  · rintro ⟨⟨x, hx, hkey⟩, hgeom⟩
    refine ⟨p1, ?_, ?_⟩
    · apply ((List.perm_insertionSort _ _).mem_iff).mpr
      rw [List.mem_dedup, List.mem_map]
      exact ⟨x, hx, hkey⟩
    · simp only [Prod.mk.injEq]
      exact ⟨trivial, hgeom.symm⟩

theorem dissolveBy_keys_nodup {α : Type} (key : α → Int) (geo : α → Finset Nat)
    (rows : List α) :
    ((dissolveBy key geo rows).map (fun p => p.1)).Nodup := by
  unfold dissolveBy
  rw [List.map_map]
  have e : ((fun p : Int × Finset Nat => p.1) ∘ fun k =>
      (k, unionGeoms ((rows.filter (fun x => key x == k)).map geo))) = id := rfl
  rw [e, List.map_id]
  exact ((List.perm_insertionSort _ _).nodup_iff).mpr (List.nodup_dedup _)

theorem collectTraces_eq (rec : List Reach) (starts : List Int) (fuel : Nat)
    (h : ∀ i ∈ starts, (find_upstream_one rec i fuel).isSome) :
    collectTraces rec starts fuel =
      some (starts.flatMap (fun i => (traceOf rec i fuel).map (fun r => (i, r)))) := by
  induction starts with
  | nil => rfl
  | cons i rest ih =>
    have hi := h i (List.mem_cons_self i rest)
    obtain ⟨l, hl⟩ := Option.isSome_iff_exists.mp hi
    have hrest := ih (fun j hj => h j (List.mem_cons_of_mem _ hj))
    simp [collectTraces, hl, hrest, traceOf]

theorem mem_tagged {rec : List Reach} {fuel : Nat} {starts : List Int}
    {p : Int × Reach} :
    p ∈ starts.flatMap (fun i => (traceOf rec i fuel).map (fun r => (i, r))) ↔
      p.1 ∈ starts ∧ p.2 ∈ traceOf rec p.1 fuel := by
  rw [List.mem_flatMap]
  constructor
  · rintro ⟨i, hi, hp⟩
    rw [List.mem_map] at hp
    obtain ⟨r, hr, rfl⟩ := hp
    exact ⟨hi, hr⟩
  · rintro ⟨h1, h2⟩
    exact ⟨p.1, h1, List.mem_map.mpr ⟨p.2, h2, rfl⟩⟩

/-- Filtering the catchment rows of one reach id commutes with the
restriction to the traced ids, once that id is among them. -/
theorem filter_catch_collapse {catch0 : List CatchRow} {sites : List Int} {k : Int}
    (hk : k ∈ sites) :
    (catch0.filter (fun c => decide (c.nzreach ∈ sites))).filter
        (fun c => c.nzreach == k) =
      catch0.filter (fun c => c.nzreach == k) := by
  induction catch0 with
  | nil => rfl
  | cons c l ih =>
    by_cases hc : c.nzreach = k
    · have h1 : decide (c.nzreach ∈ sites) = true := by simp [hc, hk]
      simp [List.filter_cons, h1, hc, hk, ih]
    · by_cases h2 : c.nzreach ∈ sites <;> simp [List.filter_cons, hc, h2, ih]

theorem mem_extract_catch {reaches : List (Int × Reach)} {catch0 : List CatchRow}
    {m : MergedRow} :
    m ∈ extract_catch reaches catch0 ↔
      ∃ p ∈ reaches, m.start = p.1 ∧ m.nzreach = p.2.nzreach ∧
        (∃ c ∈ catch0, c.nzreach = p.2.nzreach) ∧
        m.geom = dissolved catch0 p.2.nzreach := by
  simp only [extract_catch]
  rw [List.mem_flatMap]
  constructor
  · rintro ⟨kg, hkg, hm⟩
    rw [List.mem_map] at hm
    obtain ⟨p, hp, rfl⟩ := hm
    rw [List.mem_filter] at hp
    have hpk : p.2.nzreach = kg.1 := by simpa using hp.2
    obtain ⟨⟨c, hc, hck⟩, hg⟩ := mem_dissolveBy.mp hkg
    rw [List.mem_filter] at hc
    have hcsites : kg.1 ∈ uniqueFirst (reaches.map (fun p => p.2.nzreach)) := by
      have := hc.2
      simp only [decide_eq_true_eq] at this
      exact hck ▸ this
    have hgeom : kg.2 = dissolved catch0 kg.1 := by
      rw [hg, dissolved, filter_catch_collapse hcsites]
    exact ⟨p, hp.1, rfl, hpk.symm, ⟨c, hc.1, hck.trans hpk.symm⟩,
      by rw [hgeom, hpk]⟩
  · rintro ⟨p, hp, hstart, hnz, ⟨c, hc, hck⟩, hgeom⟩
    have hsites : p.2.nzreach ∈ uniqueFirst (reaches.map (fun q => q.2.nzreach)) := by
      rw [mem_uniqueFirst, List.mem_map]
      exact ⟨p, hp, rfl⟩
    refine ⟨(p.2.nzreach, dissolved catch0 p.2.nzreach), ?_, ?_⟩
    · apply mem_dissolveBy.mpr
      constructor
      · refine ⟨c, ?_, hck⟩
        rw [List.mem_filter]
        exact ⟨hc, by simpa using hck ▸ hsites⟩
      · rw [dissolved, filter_catch_collapse hsites]
    · rw [List.mem_map]
      refine ⟨p, ?_, ?_⟩
      · rw [List.mem_filter]
        exact ⟨hp, by simp⟩
      · cases m
        simp only [MergedRow.mk.injEq]
        simp only at hstart hnz hgeom
        exact ⟨hnz.symm, by rw [hgeom], hstart.symm⟩

theorem mem_agg_catch {rc : List MergedRow} {sr : ShedRow} :
    sr ∈ agg_catch rc ↔
      (∃ m ∈ rc, m.start = sr.start) ∧
      sr.geom = unionGeoms ((rc.filter (fun m => m.start == sr.start)).map
        (fun m => m.geom)) ∧
      sr.area = sr.geom.card := by
  unfold agg_catch
  rw [List.mem_map]
  constructor
  · rintro ⟨kg, hkg, rfl⟩
    obtain ⟨⟨x, hx, hk⟩, hg⟩ := mem_dissolveBy.mp hkg
    exact ⟨⟨x, hx, hk⟩, hg, rfl⟩
  · rintro ⟨⟨x, hx, hk⟩, hg, ha⟩
    refine ⟨(sr.start, sr.geom), mem_dissolveBy.mpr ⟨⟨x, hx, hk⟩, hg⟩, ?_⟩
    cases sr
    simp only at ha
    simp [ha]

theorem agg_catch_starts_nodup (rc : List MergedRow) :
    ((agg_catch rc).map (fun sr => sr.start)).Nodup := by
  have h := dissolveBy_keys_nodup (fun m : MergedRow => m.start) (fun m => m.geom) rc
  have e : ((agg_catch rc).map (fun sr => sr.start)) =
      ((dissolveBy (fun m : MergedRow => m.start) (fun m => m.geom) rc).map
        (fun p => p.1)) := by
    unfold agg_catch
    rw [List.map_map]
    rfl
  rw [e]
  exact h

theorem hasShed_iff {rec : List Reach} {catch0 : List CatchRow} {r : Int} {fuel : Nat} :
    hasShed rec catch0 r fuel = true ↔
      ∃ t ∈ traceOf rec r fuel, ∃ c ∈ catch0, c.nzreach = t.nzreach := by
  simp [hasShed, List.any_eq_true]

/-- The geometry of the `start = r` group of the extracted rows equals the
union over `r`'s traced reaches of their dissolved catchments, whenever the
`r`-section of the tagged rows is a given list `tr`. -/
theorem extract_group_geom (reaches : List (Int × Reach)) (catch0 : List CatchRow)
    (r : Int) (tr : List Reach)
    (hsec : ∀ t : Reach, (r, t) ∈ reaches ↔ t ∈ tr) :
    unionGeoms (((extract_catch reaches catch0).filter
        (fun m => m.start == r)).map (fun m => m.geom)) =
      unionGeoms ((tr.filter
          (fun t => catch0.any (fun c => c.nzreach == t.nzreach))).map
        (fun t => dissolved catch0 t.nzreach)) := by
  apply Finset.ext
  intro x
  rw [mem_unionGeoms, mem_unionGeoms]
  constructor
  · rintro ⟨g, hg, hx⟩
    rw [List.mem_map] at hg
    obtain ⟨m, hm, rfl⟩ := hg
    rw [List.mem_filter] at hm
    have hmr : m.start = r := by simpa using hm.2
    obtain ⟨p, hp, hstart, hnz, ⟨c, hc, hck⟩, hgeom⟩ := mem_extract_catch.mp hm.1
    have h1 : p.1 = r := hstart.symm.trans hmr
    have hp' : (p.1, p.2) ∈ reaches := by simpa using hp
    rw [h1] at hp'
    have hp2 : p.2 ∈ tr := (hsec p.2).mp hp'
    refine ⟨dissolved catch0 p.2.nzreach, ?_, hgeom ▸ hx⟩
    rw [List.mem_map]
    refine ⟨p.2, ?_, rfl⟩
    rw [List.mem_filter]
    refine ⟨hp2, ?_⟩
    rw [List.any_eq_true]
    exact ⟨c, hc, by simp [hck]⟩
  · rintro ⟨g, hg, hx⟩
    rw [List.mem_map] at hg
    obtain ⟨t, ht, rfl⟩ := hg
    rw [List.mem_filter] at ht
    have hcat : ∃ c ∈ catch0, c.nzreach = t.nzreach := by
      have h2 := ht.2
      rw [List.any_eq_true] at h2
      obtain ⟨c, hc, hcb⟩ := h2
      exact ⟨c, hc, by simpa using hcb⟩
    refine ⟨dissolved catch0 t.nzreach, ?_, hx⟩
    rw [List.mem_map]
    refine ⟨⟨t.nzreach, dissolved catch0 t.nzreach, r⟩, ?_, rfl⟩
    rw [List.mem_filter]
    constructor
    · exact mem_extract_catch.mpr ⟨(r, t), (hsec t).mpr ht.1, rfl, rfl, hcat, rfl⟩
    · simp

/-! ### Small list helpers used by the refinement proof -/
theorem bind_congr_mem {α β : Type} {l : List α} {f g : α → List β}
    (h : ∀ a ∈ l, f a = g a) : l.flatMap f = l.flatMap g := by
  induction l with
  | nil => rfl
  | cons a l ih =>
    simp only [List.cons_flatMap]
    rw [h a (List.mem_cons_self a l), ih (fun b hb => h b (List.mem_cons_of_mem _ hb))]

theorem bind_single_eq_map {α β : Type} (g : α → β) (l : List α) :
    l.flatMap (fun x => [g x]) = l.map g := by
  induction l with
  | nil => rfl
  | cons a l ih => simp only [List.cons_flatMap, ih, List.map_cons, List.singleton_append]

theorem map_then_bind {α β γ : Type} (f : α → β) (g : β → List γ) (l : List α) :
    (l.map f).flatMap g = l.flatMap (fun a => g (f a)) := by
  induction l with
  | nil => rfl
  | cons a l ih => simp only [List.map_cons, List.cons_flatMap, ih]

/-- Splitting a bind over a batch by a nodup list of group keys: grouping
the sites by key and traversing the groups is a permutation of traversing
the sites directly, provided the keys are exactly the site keys satisfying
the guard `P`. -/
theorem bind_groups_perm {β : Type} (sites : List MatchedSite) (keys : List Int)
    (g : MatchedSite → β) (P : Int → Bool)
    (hnd : keys.Nodup)
    (hkeys : ∀ r : Int, r ∈ keys ↔ ((∃ s ∈ sites, s.nzreach = r) ∧ P r = true)) :
    (keys.flatMap (fun r => (sites.filter (fun s => s.nzreach == r)).map g)).Perm
      (sites.flatMap (fun s => if P s.nzreach then [g s] else [])) := by
  induction keys generalizing sites with
  | nil =>
    have hrhs : sites.flatMap (fun s => if P s.nzreach then [g s] else []) = [] := by
      rw [List.flatMap_eq_nil_iff]
      intro s hs
      by_cases hp : P s.nzreach = true
      · exact absurd ((hkeys s.nzreach).mpr ⟨⟨s, hs, rfl⟩, hp⟩) (List.not_mem_nil _)
      · simp [hp]
    rw [hrhs]
    exact List.Perm.refl _
  | cons r keys ih =>
    have hPr : P r = true := ((hkeys r).mp (List.mem_cons_self r keys)).2
    have hrk : r ∉ keys := (List.nodup_cons.mp hnd).1
    have hndk : keys.Nodup := (List.nodup_cons.mp hnd).2
    -- split the sites into the `r` group and the rest
    have hsplit := List.filter_append_perm (fun s => s.nzreach == r) sites
    have hbind : (sites.flatMap (fun s => if P s.nzreach then [g s] else [])).Perm
        ((sites.filter (fun s => s.nzreach == r)).flatMap
            (fun s => if P s.nzreach then [g s] else []) ++
          (sites.filter (fun s => !(s.nzreach == r))).flatMap
            (fun s => if P s.nzreach then [g s] else [])) := by
      have := (hsplit.symm).flatMap_right (fun s => if P s.nzreach then [g s] else [])
      rw [List.flatMap_append] at this
      exact this
    have hpos : (sites.filter (fun s => s.nzreach == r)).flatMap
        (fun s => if P s.nzreach then [g s] else []) =
        (sites.filter (fun s => s.nzreach == r)).map g := by
      have h1 : (sites.filter (fun s => s.nzreach == r)).flatMap
          (fun s => if P s.nzreach then [g s] else []) =
          (sites.filter (fun s => s.nzreach == r)).flatMap (fun s => [g s]) := by
        apply bind_congr_mem
        intro s hs
        have : s.nzreach = r := by simpa using (List.mem_filter.mp hs).2
        rw [this, hPr, if_pos rfl]
      rw [h1, bind_single_eq_map]
    have hih := ih (sites.filter (fun s => !(s.nzreach == r))) hndk (by
      intro q
      constructor
      · intro hq
        obtain ⟨⟨s, hs, hsq⟩, hPq⟩ := (hkeys q).mp (List.mem_cons_of_mem r hq)
        have hqr : q ≠ r := fun h => hrk (h ▸ hq)
        refine ⟨⟨s, ?_, hsq⟩, hPq⟩
        rw [List.mem_filter]
        exact ⟨hs, by simp [hsq, hqr]⟩
      · rintro ⟨⟨s, hs, hsq⟩, hPq⟩
        rw [List.mem_filter] at hs
        have hqr : q ≠ r := by
          intro h
          subst h
          exact absurd (by simpa using hs.2) (by simp [hsq])
        have := (hkeys q).mpr ⟨⟨s, hs.1, hsq⟩, hPq⟩
        exact (List.mem_cons.mp this).resolve_left hqr)
    have htail : keys.flatMap (fun q => (sites.filter (fun s => s.nzreach == q)).map g) =
        keys.flatMap (fun q => ((sites.filter (fun s => !(s.nzreach == r))).filter
          (fun s => s.nzreach == q)).map g) := by
      apply bind_congr_mem
      intro q hq
      have hqr : q ≠ r := fun h => hrk (h ▸ hq)
      congr 1
      rw [List.filter_filter]
      apply List.filter_congr
      intro s _
      by_cases hs : s.nzreach = q
      · simp [hs, hqr]
      · simp [hs]
    have step1 : (r :: keys).flatMap
        (fun q => (sites.filter (fun s => s.nzreach == q)).map g) =
        (sites.filter (fun s => s.nzreach == r)).map g ++
          keys.flatMap (fun q => ((sites.filter (fun s => !(s.nzreach == r))).filter
            (fun s => s.nzreach == q)).map g) := by
      rw [List.cons_flatMap, htail]
    have step2 : ((sites.filter (fun s => s.nzreach == r)).map g ++
        keys.flatMap (fun q => ((sites.filter (fun s => !(s.nzreach == r))).filter
          (fun s => s.nzreach == q)).map g)).Perm
        ((sites.filter (fun s => s.nzreach == r)).map g ++
          (sites.filter (fun s => !(s.nzreach == r))).flatMap
            (fun s => if P s.nzreach then [g s] else [])) :=
      List.Perm.append_left _ hih
    rw [step1]
    exact step2.trans (hpos ▸ hbind.symm)

theorem starts_mem_iff {pts_seg : List MatchedSite} {r : Int} :
    r ∈ uniqueFirst (pts_seg.map (fun s => s.nzreach)) ↔ ∃ s ∈ pts_seg, s.nzreach = r := by
  rw [mem_uniqueFirst, List.mem_map]

/-- Structure of a successful shared run of the pipeline tail: the output is
the join of a shed table whose keys are distinct, whose rows carry exactly
the per-start aggregated geometry `shedGeom`, and which has a row for a
start exactly when some site matched it and its traced set has at least one
recorded catchment. -/
theorem delineate_from_matches_ok (rec : List Reach) (catch0 : List CatchRow)
    (pts_seg : List MatchedSite) (fuel : Nat)
    (hne : pts_seg ≠ [])
    (hterm : ∀ s ∈ pts_seg, (find_upstream_one rec s.nzreach fuel).isSome) :
    ∃ shed : List ShedRow,
      delineate_from_matches rec catch0 pts_seg fuel = Res.ok (shed.flatMap (fun sr =>
        (pts_seg.filter (fun s => s.nzreach == sr.start)).map
          (fun s => ⟨sr.start, sr.geom, sr.area, s.sid⟩))) ∧
      (shed.map (fun sr => sr.start)).Nodup ∧
      (∀ sr ∈ shed, sr.geom = shedGeom rec catch0 sr.start fuel ∧
        sr.area = sr.geom.card) ∧
      (∀ r : Int, (∃ sr ∈ shed, sr.start = r) ↔
        ((∃ s ∈ pts_seg, s.nzreach = r) ∧ hasShed rec catch0 r fuel = true)) := by
  set starts := uniqueFirst (pts_seg.map (fun s => s.nzreach)) with hstarts
  have hterm' : ∀ i ∈ starts, (find_upstream_one rec i fuel).isSome := by
    intro i hi
    obtain ⟨s, hs, rfl⟩ := starts_mem_iff.mp hi
    exact hterm s hs
  have hcoll := collectTraces_eq rec starts fuel hterm'
  have hmapne : pts_seg.map (fun s => s.nzreach) ≠ [] := by
    cases pts_seg with
    | nil => exact absurd rfl hne
    | cons a l => simp
  have hsne : starts ≠ [] := uniqueFirst_ne_nil hmapne
  set TR := starts.flatMap (fun i => (traceOf rec i fuel).map (fun r => (i, r)))
    with hTR
  have hfu : find_upstream rec starts fuel = Res.ok TR := by
    rw [find_upstream, hcoll]
    simp [hsne]
  have hdel : delineate_from_matches rec catch0 pts_seg fuel =
      Res.ok ((agg_catch (extract_catch TR catch0)).flatMap (fun sr =>
        (pts_seg.filter (fun s => s.nzreach == sr.start)).map
          (fun s => ⟨sr.start, sr.geom, sr.area, s.sid⟩))) := by
    simp only [delineate_from_matches]
    rw [← hstarts, hfu]
  refine ⟨agg_catch (extract_catch TR catch0), hdel,
    agg_catch_starts_nodup _, ?_, ?_⟩
  · intro sr hsr
    obtain ⟨⟨m, hm, hmstart⟩, hg, ha⟩ := mem_agg_catch.mp hsr
    obtain ⟨p, hp, hpstart, _, _, _⟩ := mem_extract_catch.mp hm
    have hsmem : sr.start ∈ starts := by
      have h1 : sr.start = p.1 := hmstart.symm.trans hpstart
      rw [h1]
      exact (mem_tagged.mp hp).1
    have hsec : ∀ t : Reach, (sr.start, t) ∈ TR ↔ t ∈ traceOf rec sr.start fuel := by
      intro t
      rw [mem_tagged]
      simp [hsmem]
    constructor
    · rw [hg, extract_group_geom TR catch0 sr.start (traceOf rec sr.start fuel) hsec]
      rfl
    · exact ha
  · intro r
    constructor
    · rintro ⟨sr, hsr, rfl⟩
      obtain ⟨⟨m, hm, hmstart⟩, _, _⟩ := mem_agg_catch.mp hsr
      obtain ⟨p, hp, hpstart, hpnz, ⟨c, hc, hck⟩, _⟩ := mem_extract_catch.mp hm
      have h1 : sr.start = p.1 := hmstart.symm.trans hpstart
      obtain ⟨hp1, hp2⟩ := mem_tagged.mp hp
      refine ⟨starts_mem_iff.mp (h1 ▸ hp1), ?_⟩
      rw [h1]
      exact hasShed_iff.mpr ⟨p.2, hp2, c, hc, hck⟩
    · rintro ⟨⟨s, hs, hsr⟩, hshed⟩
      obtain ⟨t, ht, c, hc, hcn⟩ := hasShed_iff.mp hshed
      have hrst : r ∈ starts := starts_mem_iff.mpr ⟨s, hs, hsr⟩
      have hpTR : ((r, t) : Int × Reach) ∈ TR := mem_tagged.mpr ⟨hrst, ht⟩
      have hmext : (⟨t.nzreach, dissolved catch0 t.nzreach, r⟩ : MergedRow) ∈
          extract_catch TR catch0 :=
        mem_extract_catch.mpr ⟨(r, t), hpTR, rfl, rfl, ⟨c, hc, hcn⟩, rfl⟩
      refine ⟨⟨r, unionGeoms (((extract_catch TR catch0).filter
          (fun m => m.start == r)).map (fun m => m.geom)),
        (unionGeoms (((extract_catch TR catch0).filter
          (fun m => m.start == r)).map (fun m => m.geom))).card⟩, ?_, rfl⟩
      exact mem_agg_catch.mpr ⟨⟨_, hmext, rfl⟩, rfl, rfl⟩

/-- A batch of one site: the run returns exactly the one row for that site
when its traced set has a recorded catchment, and no row at all otherwise. -/
theorem delineate_single (rec : List Reach) (catch0 : List CatchRow)
    (s : MatchedSite) (fuel : Nat)
    (hterm : (find_upstream_one rec s.nzreach fuel).isSome) :
    delineate_from_matches rec catch0 [s] fuel =
      Res.ok (if hasShed rec catch0 s.nzreach fuel = true
        then [⟨s.nzreach, shedGeom rec catch0 s.nzreach fuel,
          (shedGeom rec catch0 s.nzreach fuel).card, s.sid⟩]
        else []) := by
  obtain ⟨shed, hok, hnd, hrows, hkeys⟩ :=
    delineate_from_matches_ok rec catch0 [s] fuel (by simp) (by
      intro s' hs'
      rw [List.mem_singleton] at hs'
      subst hs'
      exact hterm)
  rw [hok]
  congr 1
  have hallstart : ∀ sr ∈ shed, sr.start = s.nzreach := by
    intro sr hsr
    obtain ⟨⟨s', hs', hss⟩, _⟩ := (hkeys sr.start).mp ⟨sr, hsr, rfl⟩
    rw [List.mem_singleton] at hs'
    subst hs'
    exact hss.symm
  by_cases hs : hasShed rec catch0 s.nzreach fuel = true
  · rw [if_pos hs]
    obtain ⟨sr, hsr, hstart⟩ :=
      (hkeys s.nzreach).mpr ⟨⟨s, List.mem_singleton.mpr rfl, rfl⟩, hs⟩
    have hshed_eq : shed = [sr] := by
      cases shed with
      | nil => exact absurd hsr (List.not_mem_nil _)
      | cons a l =>
        cases l with
        | nil =>
          rw [List.mem_singleton] at hsr
          rw [hsr]
        | cons b t =>
          exfalso
          have ha := hallstart a (by simp)
          have hb := hallstart b (by simp)
          have hnomem : a.start ∉ ((b :: t).map (fun sr => sr.start)) :=
            (List.nodup_cons.mp hnd).1
          exact hnomem (by simp [ha, hb])
    subst hshed_eq
    obtain ⟨hg, harea⟩ := hrows sr (List.mem_singleton.mpr rfl)
    have hsr_eq : sr = ⟨s.nzreach, shedGeom rec catch0 s.nzreach fuel,
        (shedGeom rec catch0 s.nzreach fuel).card⟩ := by
      obtain ⟨a, b, c⟩ := sr
      simp only at hstart hg harea
      subst hstart
      subst hg
      subst harea
      rfl
    subst hsr_eq
    simp
  · rw [if_neg hs]
    have hempty : shed = [] := by
      rw [List.eq_nil_iff_forall_not_mem]
      intro sr hsr
      have h1 := hallstart sr hsr
      have h2 := (hkeys sr.start).mp ⟨sr, hsr, rfl⟩
      rw [h1] at h2
      exact hs h2.2
    rw [hempty]
    rfl

/-- C5: computing the upstream trace and catchment aggregation once per
distinct matched reach id and joining the shared result back onto every
site (the code's formulation) yields the same rows — as a multiset, the
order being the code's shed order rather than site order — as tracing and
aggregating separately once per site. -/
theorem dedup_matches_refines_per_site (rec : List Reach) (catch0 : List CatchRow)
    (pts_seg : List MatchedSite) (fuel : Nat)
    (hne : pts_seg ≠ [])
    (hterm : ∀ s ∈ pts_seg, (find_upstream_one rec s.nzreach fuel).isSome) :
    ∃ out, delineate_from_matches rec catch0 pts_seg fuel = Res.ok out ∧
      out.Perm (delineate_per_site_spec rec catch0 pts_seg fuel) := by
  obtain ⟨shed, hok, hnd, hrows, hkeys⟩ :=
    delineate_from_matches_ok rec catch0 pts_seg fuel hne hterm
  refine ⟨_, hok, ?_⟩
  have hshared : shed.flatMap (fun sr =>
      (pts_seg.filter (fun s => s.nzreach == sr.start)).map
        (fun s => ⟨sr.start, sr.geom, sr.area, s.sid⟩)) =
      (shed.map (fun sr => sr.start)).flatMap (fun r =>
        (pts_seg.filter (fun s => s.nzreach == r)).map
          (fun s => (⟨s.nzreach, shedGeom rec catch0 s.nzreach fuel,
            (shedGeom rec catch0 s.nzreach fuel).card, s.sid⟩ : OutRow))) := by
    rw [map_then_bind]
    apply bind_congr_mem
    intro sr hsr
    obtain ⟨hg, ha⟩ := hrows sr hsr
    apply List.map_congr_left
    intro s hs
    have hsnz : s.nzreach = sr.start := by simpa using (List.mem_filter.mp hs).2
    have e1 : sr.geom = shedGeom rec catch0 s.nzreach fuel := by rw [hg, hsnz]
    have e2 : sr.area = (shedGeom rec catch0 s.nzreach fuel).card := by
      rw [ha, e1]
    rw [e1, e2, ← hsnz]
  have hper : delineate_per_site_spec rec catch0 pts_seg fuel =
      pts_seg.flatMap (fun s => if hasShed rec catch0 s.nzreach fuel = true
        then [(⟨s.nzreach, shedGeom rec catch0 s.nzreach fuel,
          (shedGeom rec catch0 s.nzreach fuel).card, s.sid⟩ : OutRow)] else []) := by
    unfold delineate_per_site_spec
    apply bind_congr_mem
    intro s hs
    rw [delineate_single rec catch0 s fuel (hterm s hs)]
  rw [hshared, hper]
  exact bind_groups_perm pts_seg (shed.map (fun sr => sr.start))
    (fun s => (⟨s.nzreach, shedGeom rec catch0 s.nzreach fuel,
      (shedGeom rec catch0 s.nzreach fuel).card, s.sid⟩ : OutRow))
    (fun r => hasShed rec catch0 r fuel) hnd (by
      intro r
      rw [List.mem_map]
      constructor
      · rintro ⟨sr, hsr, rfl⟩
        exact (hkeys sr.start).mp ⟨sr, hsr, rfl⟩
      · intro h
        obtain ⟨sr, hsr, hst⟩ := (hkeys r).mpr h
        exact ⟨sr, hsr, hst⟩)

/-- C4: on the network with reaches 1 (node 10 to 20), 2 (20 to 30) and
3 (25 to 30) and sub-catchment areas 5, 3 and 4, a site matched to reach 2
traces the upstream set of reach ids 2 and 1 and aggregates to area 8, and
a site matched to reach 3 traces only itself and aggregates to area 4. -/
theorem concrete_scenario_catchments :
    ((find_upstream_one rec4 2 9).getD []).map (fun r => r.nzreach) = [2, 1] ∧
    ((find_upstream_one rec4 3 9).getD []).map (fun r => r.nzreach) = [3] ∧
    delineate_from_matches rec4 catch4 [⟨100, 2⟩] 9 =
      Res.ok [⟨2, ({0, 1, 2, 3, 4, 5, 6, 7} : Finset Nat), 8, 100⟩] ∧
    delineate_from_matches rec4 catch4 [⟨200, 3⟩] 9 =
      Res.ok [⟨3, ({8, 9, 10, 11} : Finset Nat), 4, 200⟩] := by
  decide

/-! ### C2: reaches without a sub-catchment are silently skipped -/
/-- C2 counterexample: reach 1 is upstream of the matched reach 2 but has no
sub-catchment polygon; the claim demands a `MissingCatchmentError`, yet the
run completes with a result covering only reach 2 — no error class of that
name even exists in the source. -/
theorem missing_catchment_silent_counterexample :
    delineate_from_matches [⟨1, 10, 20⟩, ⟨2, 20, 30⟩] [⟨2, {5}⟩] [⟨7, 2⟩] 9 =
      Res.ok [⟨2, ({5} : Finset Nat), 1, 7⟩] := by
  decide

/-- C2 amended: a `reachId` of the upstream set with no corresponding
sub-catchment is silently dropped by the inner merge of `extract_catch` —
the output rows are exactly the traced rows that do have a catchment, and
no error is raised (the function is total on such inputs). -/
theorem missing_catchment_silently_skipped (reaches : List (Int × Reach))
    (catch0 : List CatchRow) :
    (∀ m ∈ extract_catch reaches catch0, ∃ c ∈ catch0, c.nzreach = m.nzreach) ∧
    (∀ p ∈ reaches, (∃ c ∈ catch0, c.nzreach = p.2.nzreach) →
      (⟨p.2.nzreach, dissolved catch0 p.2.nzreach, p.1⟩ : MergedRow) ∈
        extract_catch reaches catch0) := by
  constructor
  · intro m hm
    obtain ⟨p, _, _, hnz, ⟨c, hc, hck⟩, _⟩ := mem_extract_catch.mp hm
    exact ⟨c, hc, by rw [hck, hnz]⟩
  · intro p hp hcat
    exact mem_extract_catch.mpr ⟨p, hp, rfl, rfl, hcat, rfl⟩

theorem missing_catchment_silently_skipped_witness :
    (⟨2, dissolved [⟨2, {5}⟩] 2, 2⟩ : MergedRow) ∈
      extract_catch [(2, ⟨2, 20, 30⟩), (2, ⟨1, 10, 20⟩)] [⟨2, {5}⟩] :=
  (missing_catchment_silently_skipped
      [(2, ⟨2, 20, 30⟩), (2, ⟨1, 10, 20⟩)] [⟨2, {5}⟩]).2
    (2, ⟨2, 20, 30⟩) (by decide) ⟨⟨2, {5}⟩, by decide, rfl⟩

/-! ### C9 and C3: behaviour of the batch around unmatched sites -/
theorem nearestReach_mem {p : Pt} {recs : List (Reach × Pt)} {n d : Int}
    (h : nearestReach p recs = some (n, d)) :
    ∃ rc ∈ recs, rc.1.nzreach = n ∧ d = distSq p rc.2 := by
  induction recs generalizing n d with
  | nil => exact Option.noConfusion h
  | cons rc rest ih =>
    cases hr : nearestReach p rest with
    | none =>
      simp only [nearestReach, hr] at h
      injection h with h'
      exact ⟨rc, List.mem_cons_self _ _, congrArg Prod.fst h',
        (congrArg Prod.snd h').symm⟩
    | some nd =>
      obtain ⟨n', d'⟩ := nd
      simp only [nearestReach, hr] at h
      by_cases hle : distSq p rc.2 ≤ d'
      · rw [if_pos hle] at h
        injection h with h'
        exact ⟨rc, List.mem_cons_self _ _, congrArg Prod.fst h',
          (congrArg Prod.snd h').symm⟩
      · rw [if_neg hle] at h
        injection h with h'
        have h1 : n' = n := congrArg Prod.fst h'
        have h2 : d' = d := congrArg Prod.snd h'
        obtain ⟨rc', hrc', hn, hd⟩ := ih (h1 ▸ h2 ▸ hr)
        exact ⟨rc', List.mem_cons_of_mem _ hrc', hn, hd⟩

theorem kd_nearest_sound {pts : List Site} {recs : List (Reach × Pt)}
    {maxd : Option Int} {s : MatchedSite}
    (h : s ∈ kd_nearest pts recs maxd) :
    ∃ p ∈ pts, s.sid = p.sid ∧
      ∃ rc ∈ recs, withinBound (distSq p.pos rc.2) maxd = true := by
  rw [kd_nearest, List.mem_flatMap] at h
  obtain ⟨p, hp, hs⟩ := h
  cases hnr : nearestReach p.pos recs with
  | none =>
    simp only [hnr] at hs
    exact absurd hs (List.not_mem_nil _)
  | some nd =>
    obtain ⟨n, d⟩ := nd
    simp only [hnr] at hs
    by_cases hw : withinBound d maxd = true
    · simp only [hw, if_true, List.mem_singleton] at hs
      obtain ⟨rc, hrc, _, hd⟩ := nearestReach_mem hnr
      exact ⟨p, hp, by rw [hs], rc, hrc, hd ▸ hw⟩
    · simp only [hw, if_false] at hs
      exact absurd hs (List.not_mem_nil s)

/-- C9: when no input site obtains a match within the distance bound (every
site is farther than the bound from every post-override reach centroid),
the matched table is empty, so `find_upstream` is called with an empty id
collection and `catch_delineate` raises — the `pd.concat` of an empty frame
list — instead of returning an empty result set. -/
theorem catch_delineate_no_match_raises (pts : List Site)
    (recs : List (Reach × Pt)) (catch0 : List CatchRow) (maxd : Option Int)
    (fuel : Nat)
    (hfar : ∀ p ∈ pts, ∀ rc ∈ applyModsS mods recs,
      withinBound (distSq p.pos rc.2) maxd = false) :
    catch_delineate pts recs catch0 maxd fuel = Res.raised := by
  have hmatch : kd_nearest pts (applyModsS mods recs) maxd = [] := by
    rw [kd_nearest, List.flatMap_eq_nil_iff]
    intro p hp
    cases hnr : nearestReach p.pos (applyModsS mods recs) with
    | none => rfl
    | some nd =>
      obtain ⟨n, d⟩ := nd
      obtain ⟨rc, hrc, _, hd⟩ := nearestReach_mem hnr
      have hw : withinBound d maxd = false := hd ▸ hfar p hp rc hrc
      simp [hw]
  simp only [catch_delineate]
  rw [hmatch]
  rfl

theorem catch_delineate_no_match_raises_witness :
    catch_delineate [⟨1, ⟨100, 100⟩⟩] [(⟨1, 10, 20⟩, ⟨0, 0⟩)] [⟨1, {0}⟩]
      (some 4) 9 = Res.raised :=
  catch_delineate_no_match_raises _ _ _ _ _ (by decide)

/-- C3 counterexample: a batch whose only site lies farther than
`max_distance` from every reach centroid makes the whole run raise (the
empty concat inside `find_upstream`), contradicting the claim that for
every batch the run does not raise while dropping the far sites. -/
theorem far_site_batch_raises_counterexample :
    catch_delineate [⟨42, ⟨50, 60⟩⟩] [(⟨1, 10, 20⟩, ⟨0, 0⟩)] [⟨1, {0}⟩]
      (some 9) 9 = Res.raised := by
  decide

/-- C3 amended: provided at least one site matches within the distance
bound (and the traces terminate), the run completes without raising and
every output row carries the attributes of a site that is within the bound
of some reach centroid — a site farther than the bound from every centroid
contributes no row.  When no site matches at all, the run raises instead
(see the C9 theorem). -/
theorem far_sites_absent_when_batch_matches (pts : List Site)
    (recs : List (Reach × Pt)) (catch0 : List CatchRow) (maxd : Option Int)
    (fuel : Nat)
    (hne : kd_nearest pts (applyModsS mods recs) maxd ≠ [])
    (hterm : ∀ s ∈ kd_nearest pts (applyModsS mods recs) maxd,
      (find_upstream_one ((applyModsS mods recs).map (fun rc => rc.1))
        s.nzreach fuel).isSome) :
    ∃ out, catch_delineate pts recs catch0 maxd fuel = Res.ok out ∧
      ∀ row ∈ out, ∃ p ∈ pts, row.sid = p.sid ∧
        ∃ rc ∈ applyModsS mods recs,
          withinBound (distSq p.pos rc.2) maxd = true := by
  obtain ⟨shed, hok, _, _, _⟩ := delineate_from_matches_ok
    ((applyModsS mods recs).map (fun rc => rc.1)) catch0
    (kd_nearest pts (applyModsS mods recs) maxd) fuel hne hterm
  have hcd : catch_delineate pts recs catch0 maxd fuel =
      Res.ok (shed.flatMap (fun sr =>
        ((kd_nearest pts (applyModsS mods recs) maxd).filter
          (fun s => s.nzreach == sr.start)).map
          (fun s => ⟨sr.start, sr.geom, sr.area, s.sid⟩))) := by
    simp only [catch_delineate]
    exact hok
  refine ⟨_, hcd, ?_⟩
  · intro row hrow
    rw [List.mem_flatMap] at hrow
    obtain ⟨sr, hsr, hrow⟩ := hrow
    rw [List.mem_map] at hrow
    obtain ⟨s, hs, rfl⟩ := hrow
    have hs' : s ∈ kd_nearest pts (applyModsS mods recs) maxd :=
      (List.mem_filter.mp hs).1
    obtain ⟨p, hp, hsid, rc, hrc, hw⟩ := kd_nearest_sound hs'
    exact ⟨p, hp, hsid, rc, hrc, hw⟩

theorem far_sites_absent_when_batch_matches_witness :
    ∃ out, catch_delineate [⟨5, ⟨0, 0⟩⟩, ⟨6, ⟨100, 100⟩⟩]
        [(⟨1, 10, 20⟩, ⟨0, 0⟩)] [⟨1, {0}⟩] (some 4) 9 = Res.ok out ∧
      ∀ row ∈ out, ∃ p ∈ [(⟨5, ⟨0, 0⟩⟩ : Site), ⟨6, ⟨100, 100⟩⟩],
        row.sid = p.sid ∧
        ∃ rc ∈ applyModsS mods [(⟨1, 10, 20⟩, ⟨0, 0⟩)],
          withinBound (distSq p.pos rc.2) (some 4) = true :=
  far_sites_absent_when_batch_matches _ _ _ _ _ (by decide) (by decide)

theorem dedup_matches_refines_per_site_witness :
    ∃ out, delineate_from_matches [⟨1, 10, 20⟩, ⟨2, 20, 30⟩]
        [⟨1, {0}⟩, ⟨2, {1}⟩] [⟨7, 2⟩, ⟨8, 2⟩] 9 = Res.ok out ∧
      out.Perm (delineate_per_site_spec [⟨1, 10, 20⟩, ⟨2, 20, 30⟩]
        [⟨1, {0}⟩, ⟨2, {1}⟩] [⟨7, 2⟩, ⟨8, 2⟩] 9) :=
  dedup_matches_refines_per_site _ _ _ _ (by decide) (by decide)

/-! ### C8: an override for an absent reach id is a silent no-op -/
/-- C8: an override entry whose reach id matches no stream row leaves the
table exactly unchanged — the `.loc` selection mask matches nothing, the
assignment touches no row and nothing is raised (the update is a total
function of the table). -/
theorem override_absent_id_noop (rows : List (Reach × Pt)) (i t : Int)
    (habs : ∀ rc ∈ rows, rc.1.nzreach ≠ i) :
    applyOverrideS rows i t = rows := by
  induction rows with
  | nil => rfl
  | cons rc l ih =>
    have h1 : (rc.1.nzreach == i) = false := by
      simpa using habs rc (List.mem_cons_self _ _)
    have ih' := ih (fun x hx => habs x (List.mem_cons_of_mem _ hx))
    rw [applyOverrideS, List.map_cons, h1]
    rw [applyOverrideS] at ih'
    simp only [Bool.false_eq_true, if_false, ih']

theorem override_absent_id_noop_witness :
    applyOverrideS [(⟨1, 2, 3⟩, ⟨0, 0⟩)] 99 5 = [(⟨1, 2, 3⟩, ⟨0, 0⟩)] :=
  override_absent_id_noop [(⟨1, 2, 3⟩, ⟨0, 0⟩)] 99 5 (by decide)

theorem heapGet_heapSet_same :
    ∀ (h : Heap) (oid : Nat) (v : List (Reach × Pt)),
      (heapGet h oid).isSome → heapGet (heapSet h oid v) oid = some v := by
  intro h
  induction h with
  | nil => intro oid v hmem; simp [heapGet] at hmem
  | cons q t ih =>
    intro oid v hmem
    by_cases hq : q.1 = oid
    · rw [heapSet, if_pos hq, heapGet, if_pos rfl]
    · rw [heapSet, if_neg hq, heapGet, if_neg hq]
      refine ih oid v ?_
      rw [heapGet, if_neg hq] at hmem
      exact hmem

theorem heapGet_heapSet_ne :
    ∀ (h : Heap) (oid j : Nat) (v : List (Reach × Pt)), j ≠ oid →
      heapGet (heapSet h oid v) j = heapGet h j := by
  intro h
  induction h with
  | nil => intro oid j v _; rfl
  | cons q t ih =>
    intro oid j v hne
    by_cases hq : q.1 = oid
    · rw [heapSet, if_pos hq, heapGet, if_neg (fun h => hne h.symm), heapGet,
        if_neg (hq ▸ fun h => hne h.symm)]
    · by_cases hj : q.1 = j
      · rw [heapSet, if_neg hq, heapGet, if_pos hj, heapGet, if_pos hj]
      · rw [heapSet, if_neg hq, heapGet, if_neg hj, heapGet, if_neg hj]
        exact ih oid j v hne

theorem le_foldr_max (l : List Nat) :
    ∀ x ∈ l, x ≤ l.foldr (fun a b => max a b) 0 := by
  induction l with
  | nil => intro x hx; exact absurd hx (List.not_mem_nil _)
  | cons a t ih =>
    intro x hx
    rcases List.mem_cons.mp hx with rfl | hx
    · exact Nat.le_max_left _ _
    · exact Nat.le_trans (ih x hx) (Nat.le_max_right _ _)

theorem heapGet_mem :
    ∀ (h : Heap) (src : Nat) (v : List (Reach × Pt)),
      heapGet h src = some v → ∃ q ∈ h, q.1 = src := by
  intro h
  induction h with
  | nil => intro src v hv; exact Option.noConfusion hv
  | cons q t ih =>
    intro src v hv
    by_cases hq : q.1 = src
    · exact ⟨q, List.mem_cons_self _ _, hq⟩
    · rw [heapGet, if_neg hq] at hv
      obtain ⟨q', hq', hq1⟩ := ih src v hv
      exact ⟨q', List.mem_cons_of_mem _ hq', hq1⟩

theorem src_ne_freshId {h : Heap} {src : Nat} {v : List (Reach × Pt)}
    (hv : heapGet h src = some v) : src ≠ freshId h := by
  obtain ⟨q, hq, hq1⟩ := heapGet_mem h src v hv
  have hle : q.1 ≤ (h.map (fun q => q.1)).foldr (fun a b => max a b) 0 :=
    le_foldr_max _ q.1 (List.mem_map.mpr ⟨q, hq, rfl⟩)
  intro he
  rw [← hq1, freshId] at he
  omega

theorem mods_loop_heap_spec (ms : List (Int × Int)) :
    ∀ (h : Heap) (wid : Nat) (v : List (Reach × Pt)),
      heapGet h wid = some v →
      heapGet (mods_loop_heap ms h wid) wid = some (applyModsS ms v) ∧
      ∀ j : Nat, j ≠ wid → heapGet (mods_loop_heap ms h wid) j = heapGet h j := by
  induction ms with
  | nil =>
    intro h wid v hv
    refine ⟨?_, fun j _ => rfl⟩
    simpa [mods_loop_heap, applyModsS] using hv
  | cons m ms ih =>
    intro h wid v hv
    have hstep : mods_loop_heap (m :: ms) h wid =
        mods_loop_heap ms (heapSet h wid (applyOverrideS v m.1 m.2)) wid := by
      simp only [mods_loop_heap, List.foldl_cons, hv]
    have hv1 : heapGet (heapSet h wid (applyOverrideS v m.1 m.2)) wid =
        some (applyOverrideS v m.1 m.2) :=
      heapGet_heapSet_same h wid _ (by rw [hv]; rfl)
    obtain ⟨h1, h2⟩ := ih (heapSet h wid (applyOverrideS v m.1 m.2)) wid _ hv1
    rw [hstep]
    refine ⟨by rw [h1]; rfl, ?_⟩
    intro j hj
    rw [h2 j hj, heapGet_heapSet_ne h wid j _ hj]

/-- C6: under the spec's model of `load_geo_data` as returning a fresh copy
of an already-loaded collection, running the topology-override loop is a
transformation of the working copy only: the caller's source object holds
exactly its original rows afterwards, and the working object holds the
override-corrected rows `applyModsS`. -/
theorem overrides_leave_source_unchanged (ms : List (Int × Int)) (h : Heap)
    (src : Nat) (h' : Heap) (wid : Nat)
    (hrun : run_overrides_heap ms h src = some (h', wid)) :
    heapGet h' src = heapGet h src ∧
    heapGet h' wid = some (applyModsS ms ((heapGet h src).getD [])) := by
  cases hv : heapGet h src with
  | none =>
    rw [run_overrides_heap, load_geo_data_heap, hv] at hrun
    exact Option.noConfusion hrun
  | some v =>
    rw [run_overrides_heap, load_geo_data_heap, hv] at hrun
    rw [Option.map_some'] at hrun
    injection hrun with hpair
    have hh' : h' = mods_loop_heap ms ((freshId h, v) :: h) (freshId h) :=
      (congrArg Prod.fst hpair).symm
    have hwid : wid = freshId h := (congrArg Prod.snd hpair).symm
    have hsrcne : src ≠ freshId h := src_ne_freshId hv
    have hget1 : heapGet ((freshId h, v) :: h) (freshId h) = some v := by
      rw [heapGet, if_pos rfl]
    obtain ⟨hw, hother⟩ := mods_loop_heap_spec ms ((freshId h, v) :: h) (freshId h) v hget1
    subst hh'
    subst hwid
    constructor
    · rw [hother src hsrcne, heapGet, if_neg (fun he => hsrcne he.symm), hv]
    · rw [hw]
      rfl

theorem overrides_leave_source_unchanged_witness :
    heapGet [(1, [(⟨1, 2, 99⟩, ⟨0, 0⟩)]), (0, [(⟨1, 2, 3⟩, ⟨0, 0⟩)])] 0 =
        heapGet [(0, [(⟨1, 2, 3⟩, ⟨0, 0⟩)])] 0 ∧
      heapGet [(1, [(⟨1, 2, 99⟩, ⟨0, 0⟩)]), (0, [(⟨1, 2, 3⟩, ⟨0, 0⟩)])] 1 =
        some (applyModsS [(1, 99)]
          ((heapGet [(0, [(⟨1, 2, 3⟩, ⟨0, 0⟩)])] 0).getD [])) :=
  overrides_leave_source_unchanged [(1, 99)] [(0, [(⟨1, 2, 3⟩, ⟨0, 0⟩)])] 0
    [(1, [(⟨1, 2, 99⟩, ⟨0, 0⟩)]), (0, [(⟨1, 2, 3⟩, ⟨0, 0⟩)])] 1 (by decide)
